import Mathlib

/-!
A shallow embedding of the sequence-to-sequence translation model in
`src/model.py` (classes `Seq2Seq`, `Encoder`, `Decoder`, `Attention`).

Modelling conventions:
* Floating-point scalars are modelled as exact rationals (`ℚ`).  The
  transcendental activation functions are parameters: a record `Act` carries
  `exp` and `log`; `sigmoid`, `tanh` and `softmax` are built from them by
  their defining formulas.  Every theorem holds for any instantiation, in
  particular for the mathematical `exp`/`log`; theorems that need a property
  of `exp` (strict positivity) take it as an explicit hypothesis.
* A tensor axis of statically known size `n` is a function out of `Fin n`;
  the time axis of a growing accumulation (decoder steps, greedy decoding) is
  a `List`, mirroring the Python lists that are appended to and concatenated.
  Leading axes of constant size 1 (e.g. the `num_layers` axis of the LSTM
  state, merged to `(1, B, H)` in `Encoder.forward`) are erased.
* Token indices are `ℤ` (PyTorch `long` entries); an embedding lookup checks
  `0 ≤ tok < vocab` and fails otherwise, mirroring the `IndexError` raised by
  `torch.nn.Embedding`.  Fallible computations return `Except Err _`, with
  `Err.indexOutOfRange` for an embedding lookup failure and `Err.emptyCat`
  for `torch.cat` applied to an empty list of tensors.
* `torch.nn.LSTM` (used by `Encoder` and `Decoder`) is library code; it is
  embedded by the recurrence given in the PyTorch documentation, with zero
  initial state when none is passed, and with independent parameter bundles
  for the two directions of the bidirectional encoder.
-/

namespace NMT

/-- A feature axis of size `n`: one rational per coordinate. -/
abbrev Vec (n : ℕ) := Fin n → ℚ

/-- The LSTM state pair `(h, c)` for batch `B` and hidden size `H`
(the `num_layers = 1` leading axis is erased). -/
abbrev Hidden (B H : ℕ) := (Fin B → Vec H) × (Fin B → Vec H)

/-- Failure conditions surfaced by the forward path. -/
inductive Err
  /-- An embedding lookup received an index outside `[0, vocab)`. -/
  | indexOutOfRange
  /-- `torch.cat` was applied to an empty list of tensors. -/
  | emptyCat
deriving DecidableEq

/-- The transcendental activations, kept abstract: the model is defined for
any `exp` and `log`, and theorems that need positivity of `exp` assume it. -/
structure Act where
  exp : ℚ → ℚ
  log : ℚ → ℚ

/-- `sigmoid x = 1 / (1 + exp (-x))`. -/
def sigmoidA (A : Act) (x : ℚ) : ℚ := 1 / (1 + A.exp (-x))

/-- `tanh x = (exp x - exp (-x)) / (exp x + exp (-x))`. -/
def tanhA (A : Act) (x : ℚ) : ℚ := (A.exp x - A.exp (-x)) / (A.exp x + A.exp (-x))

/-- Matrix–vector product, the core of `torch.nn.Linear` (weight has shape
`(out_features, in_features)`). -/
def matVec {m n : ℕ} (W : Fin m → Fin n → ℚ) (v : Vec n) : Vec m :=
  fun r => ∑ c, W r c * v c

/-- Softmax of a vector along its (single) axis: `exp xᵢ / ∑ⱼ exp xⱼ`.
`torch.nn.functional.softmax(t, dim=d)` applies this along axis `d` with all
other indices fixed. -/
def softmaxVec (A : Act) {n : ℕ} (v : Fin n → ℚ) : Fin n → ℚ :=
  fun i => A.exp (v i) / ∑ j, A.exp (v j)

/-- Log-softmax of a vector along its axis: `xᵢ - log ∑ⱼ exp xⱼ`, the
mathematical content of `torch.nn.functional.log_softmax`. -/
def logSoftmaxVec (A : Act) {n : ℕ} (v : Fin n → ℚ) : Fin n → ℚ :=
  fun i => v i - A.log (∑ j, A.exp (v j))

/-- Scan for the index of the first maximal element; `i` is the index of the
next list element, `best`/`bv` the current best index and value. -/
def argmaxAux : List ℚ → ℕ → ℕ → ℚ → ℕ
  | [], _, best, _ => best
  | x :: xs, i, best, bv =>
    if bv < x then argmaxAux xs (i + 1) i x else argmaxAux xs (i + 1) best bv

/-- Index of the (first) maximal entry of a vector: `t.max(dim=...)[1]` /
`argmax` along an axis.  Returns `0` on an empty axis. -/
def argmaxVec {n : ℕ} (v : Fin n → ℚ) : ℕ :=
  match List.ofFn v with
  | [] => 0
  | x :: xs => argmaxAux xs 1 0 x

/-- Concatenation of two `H`-vectors into a `2·H`-vector
(`torch.cat` on the feature axis). -/
def vcat2 {H : ℕ} (u v : Vec H) : Vec (2 * H) :=
  fun i =>
    if h : (i : ℕ) < H then u ⟨i, h⟩
    else v ⟨(i : ℕ) - H, by have := i.isLt; omega⟩

/-- Concatenation of an `H`-vector and a `2·H`-vector into a `3·H`-vector. -/
def vcat3 {H : ℕ} (u : Vec H) (v : Vec (2 * H)) : Vec (3 * H) :=
  fun i =>
    if h : (i : ℕ) < H then u ⟨i, h⟩
    else v ⟨(i : ℕ) - H, by have := i.isLt; omega⟩

/-- Parameters of one direction of a single-layer `torch.nn.LSTM`: the four
gates' input-hidden and hidden-hidden weights and both bias vectors, i.e. the
rows of `weight_ih_l0`, `weight_hh_l0`, `bias_ih_l0`, `bias_hh_l0` split into
the gate order `i, f, g, o` used by PyTorch. -/
structure LSTMP (I H : ℕ) where
  wii : Fin H → Fin I → ℚ
  wif : Fin H → Fin I → ℚ
  wig : Fin H → Fin I → ℚ
  wio : Fin H → Fin I → ℚ
  whi : Fin H → Fin H → ℚ
  whf : Fin H → Fin H → ℚ
  whg : Fin H → Fin H → ℚ
  who : Fin H → Fin H → ℚ
  bihI : Vec H
  bihF : Vec H
  bihG : Vec H
  bihO : Vec H
  bhhI : Vec H
  bhhF : Vec H
  bhhG : Vec H
  bhhO : Vec H

/-- One LSTM cell step (PyTorch recurrence):
`i = σ(W_ii x + b_ii + W_hi h + b_hi)`, `f`, `g = tanh(...)`, `o` likewise;
`c' = f ⊙ c + i ⊙ g`; `h' = o ⊙ tanh c'`. -/
def lstmCell (A : Act) {I H : ℕ} (p : LSTMP I H) (x : Vec I) (hc : Vec H × Vec H) :
    Vec H × Vec H :=
  let i := fun j => sigmoidA A (matVec p.wii x j + p.bihI j + matVec p.whi hc.1 j + p.bhhI j)
  let f := fun j => sigmoidA A (matVec p.wif x j + p.bihF j + matVec p.whf hc.1 j + p.bhhF j)
  let g := fun j => tanhA A (matVec p.wig x j + p.bihG j + matVec p.whg hc.1 j + p.bhhG j)
  let o := fun j => sigmoidA A (matVec p.wio x j + p.bihO j + matVec p.who hc.1 j + p.bhhO j)
  let c := fun j => f j * hc.2 j + i j * g j
  (fun j => o j * tanhA A (c j), c)

/-- The LSTM cell applied independently to every batch row. -/
def lstmCellB (A : Act) {B I H : ℕ} (p : LSTMP I H) (x : Fin B → Vec I)
    (hc : Hidden B H) : Hidden B H :=
  (fun b => (lstmCell A p (x b) (hc.1 b, hc.2 b)).1,
   fun b => (lstmCell A p (x b) (hc.1 b, hc.2 b)).2)

/-- Run the LSTM over a time-major input sequence, returning the per-step
`h` outputs (the LSTM `output` tensor for a single layer) and the final
state pair. -/
def lstmSeq (A : Act) {B I H : ℕ} (p : LSTMP I H) :
    List (Fin B → Vec I) → Hidden B H → List (Fin B → Vec H) × Hidden B H
  | [], hc => ([], hc)
  | x :: xs, hc =>
    let hc1 := lstmCellB A p x hc
    let rest := lstmSeq A p xs hc1
    (hc1.1 :: rest.1, rest.2)

/-- The all-zero LSTM state (PyTorch's default initial state). -/
def zeroHidden (B H : ℕ) : Hidden B H := (fun _ _ => 0, fun _ _ => 0)

/-- The all-zero batch row used as an out-of-range default for `List.getD`. -/
def zRow (B H : ℕ) : Fin B → Vec H := fun _ _ => 0

/-- Reindex a batch-major `(B, L, E)` tensor as a time-major list of `L`
batch rows. -/
def timeMajor {B L E : ℕ} (em : Fin B → Fin L → Vec E) : List (Fin B → Vec E) :=
  List.ofFn (fun t => fun b => em b t)

/-- Look up every token of a `(B, L)` index tensor in an embedding table of
`V` rows (`Embedding.forward`): fails with `indexOutOfRange` when any entry
is negative or `≥ V`, exactly PyTorch's behavior. -/
def embedAll {V E B L : ℕ} (emb : Fin V → Vec E) (toks : Fin B → Fin L → ℤ) :
    Except Err (Fin B → Fin L → Vec E) :=
  if h : ∀ b t, 0 ≤ toks b t ∧ toks b t < (V : ℤ) then
    .ok (fun b t => emb ⟨(toks b t).toNat, by have := h b t; omega⟩)
  else .error .indexOutOfRange

/-- Parameters of `Encoder`: embedding table and the two directions of the
bidirectional recurrent layer. -/
structure EncoderP (E H V : ℕ) where
  emb : Fin V → Vec E
  fwd : LSTMP E H
  bwd : LSTMP E H

/-- The forward-direction run of the encoder's LSTM (zero initial state). -/
def encFwd (A : Act) {B L E H : ℕ} (p : LSTMP E H) (em : Fin B → Fin L → Vec E) :
    List (Fin B → Vec H) × Hidden B H :=
  lstmSeq A p (timeMajor em) (zeroHidden B H)

/-- The reverse-direction run of the encoder's LSTM: the input sequence is
consumed reversed (zero initial state). -/
def encBwd (A : Act) {B L E H : ℕ} (p : LSTMP E H) (em : Fin B → Fin L → Vec E) :
    List (Fin B → Vec H) × Hidden B H :=
  lstmSeq A p (timeMajor em).reverse (zeroHidden B H)

/-- The per-direction final states of the bidirectional encoder LSTM, i.e.
the `(2, B, H)` tensors `hidden_states[0]` / `hidden_states[1]` before the
`sum(0)` in `Encoder.forward`: direction `0` is forward, `1` is backward. -/
def encDirFinals (A : Act) {B L E H V : ℕ} (enc : EncoderP E H V)
    (em : Fin B → Fin L → Vec E) : Fin 2 → Hidden B H :=
  ![(encFwd A enc.fwd em).2, (encBwd A enc.bwd em).2]

/-- The encoder `output` tensor `(B, L, 2·H)`: at each source position the
forward hidden vector concatenated with the backward hidden vector (the
backward run's outputs are position-reversed back into source order). -/
def encOutputs (A : Act) {B L E H V : ℕ} (enc : EncoderP E H V)
    (em : Fin B → Fin L → Vec E) : Fin B → Fin L → Vec (2 * H) :=
  fun b t =>
    vcat2 (((encFwd A enc.fwd em).1.getD t (zRow B H)) b)
      (((encBwd A enc.bwd em).1.reverse.getD t (zRow B H)) b)

/-- `Encoder.forward`: embed the source tokens, run the bidirectional LSTM,
and merge the per-direction final states by summing over the direction axis
(`hidden_states[k].sum(0)` for `k = 0, 1`). -/
def encoderForward (A : Act) {V E H B L : ℕ} (enc : EncoderP E H V)
    (toks : Fin B → Fin L → ℤ) :
    Except Err ((Fin B → Fin L → Vec (2 * H)) × Hidden B H) :=
  match embedAll enc.emb toks with
  | .error e => .error e
  | .ok em =>
    .ok (encOutputs A enc em,
      (fun b i => ∑ d, (encDirFinals A enc em d).1 b i,
       fun b i => ∑ d, (encDirFinals A enc em d).2 b i))

/-- Parameters of `Attention`: `attn_layer` (a bias-free `Linear(H, 2H)`)
and `combine_layer` (a `Linear(3H, H)` with bias). -/
structure AttnP (H : ℕ) where
  attnW : Fin (2 * H) → Fin H → ℚ
  combineW : Fin H → Fin (3 * H) → ℚ
  combineB : Vec H

/-- `attn_scores = bmm(attn_layer(last_hidden), encoder_outputs^T)`, a
`(B, 1, L)` tensor: the projected decoder hidden dotted against every
encoder output position. -/
def attnScores {B L H : ℕ} (p : AttnP H) (hid : Hidden B H)
    (eo : Fin B → Fin L → Vec (2 * H)) : Fin B → Fin 1 → Fin L → ℚ :=
  fun b _ l => ∑ j, matVec p.attnW (hid.1 b) j * eo b l j

/-- `attn_weights = softmax(attn_scores, dim=1)`: softmax taken along axis 1
of the `(B, 1, L)` score tensor — the singleton axis, exactly as in the
source — with the batch and source-position indices fixed. -/
def attnWeights (A : Act) {B L H : ℕ} (p : AttnP H) (hid : Hidden B H)
    (eo : Fin B → Fin L → Vec (2 * H)) : Fin B → Fin 1 → Fin L → ℚ :=
  fun b i l => softmaxVec A (fun i2 => attnScores p hid eo b i2 l) i

/-- `attention_applied = bmm(attn_weights, encoder_outputs)`, squeezed to
`(B, 2·H)`: the weighted combination of encoder outputs. -/
def attnApplied (A : Act) {B L H : ℕ} (p : AttnP H) (hid : Hidden B H)
    (eo : Fin B → Fin L → Vec (2 * H)) : Fin B → Vec (2 * H) :=
  fun b j => ∑ l, attnWeights A p hid eo b 0 l * eo b l j

/-- `Attention.forward`: returns the combined representation
`tanh(combine_layer(cat(decoder_output, attention_applied)))` and the
attention-weight tensor `(B, 1, L)`. -/
def attentionForward (A : Act) {B L H : ℕ} (p : AttnP H) (decOut : Fin B → Vec H)
    (hid : Hidden B H) (eo : Fin B → Fin L → Vec (2 * H)) :
    (Fin B → Vec H) × (Fin B → Fin 1 → Fin L → ℚ) :=
  (fun b i =>
     tanhA A (matVec p.combineW (vcat3 (decOut b) (attnApplied A p hid eo b)) i
       + p.combineB i),
   attnWeights A p hid eo)

/-- Parameters of `Decoder`: embedding table, unidirectional LSTM,
`output_layer` (`Linear(H, V)`) weight and bias, and the attention block. -/
structure DecoderP (E H V : ℕ) where
  emb : Fin V → Vec E
  rnn : LSTMP E H
  outW : Fin V → Fin H → ℚ
  outB : Vec V
  attn : AttnP H

/-- Look up one time step's `(B,)` column of token indices in the embedding
table, failing on any out-of-range entry. -/
def embedRow {V E B : ℕ} (emb : Fin V → Vec E) (r : Fin B → ℤ) :
    Except Err (Fin B → Vec E) :=
  if h : ∀ b, 0 ≤ r b ∧ r b < (V : ℤ) then
    .ok (fun b => emb ⟨(r b).toNat, by have := h b; omega⟩)
  else .error .indexOutOfRange

/-- Embed a time-major token sequence; any out-of-range entry anywhere makes
the whole lookup fail (the code embeds the full tensor before its loop). -/
def embedSeq {V E B : ℕ} (emb : Fin V → Vec E) :
    List (Fin B → ℤ) → Except Err (List (Fin B → Vec E))
  | [] => .ok []
  | r :: rs =>
    match embedRow emb r, embedSeq emb rs with
    | .error e, _ => .error e
    | .ok _, .error e => .error e
    | .ok x, .ok xs => .ok (x :: xs)

/-- The sequential step loop of `Decoder.forward`: for each embedded input
step, advance the LSTM by one step, then apply attention to that step's raw
recurrent output (which, for a single-layer LSTM, is the updated `h`) and
the updated hidden state; collect the attention-combined step outputs. -/
def decoderLoop (A : Act) {B L E H V : ℕ} (p : DecoderP E H V)
    (eo : Fin B → Fin L → Vec (2 * H)) :
    List (Fin B → Vec E) → Hidden B H → List (Fin B → Vec H) × Hidden B H
  | [], hc => ([], hc)
  | x :: xs, hc =>
    let hc1 := lstmCellB A p.rnn x hc
    let stepOut := attentionForward A p.attn hc1.1 hc1 eo
    let rest := decoderLoop A p eo xs hc1
    (stepOut.1 :: rest.1, rest.2)

/-- `Decoder.forward`: embed the inputs, run the attention-augmented step
loop, project every collected step output through `output_layer` to
vocabulary logits, and also return the final hidden state. -/
def decoderForward (A : Act) {B L E H V : ℕ} (p : DecoderP E H V)
    (eo : Fin B → Fin L → Vec (2 * H)) (toks : List (Fin B → ℤ))
    (hc : Hidden B H) : Except Err (List (Fin B → Vec V) × Hidden B H) :=
  match embedSeq p.emb toks with
  | .error e => .error e
  | .ok em =>
    let run := decoderLoop A p eo em hc
    .ok (run.1.map (fun o b => fun w => matVec p.outW (o b) w + p.outB w), run.2)

/-- The whole model: encoder, decoder, and the start/end token indices
(`START_INDEX`, `END_INDEX`). -/
structure Seq2SeqP (E H Vs Vt : ℕ) where
  encoder : EncoderP E H Vs
  decoder : DecoderP E H Vt
  START_INDEX : ℤ
  END_INDEX : ℤ

/-- `Seq2Seq.decode_forced`: run the decoder once over the full target
sequence; scores are the log-softmax of the logits over the vocabulary axis,
predictions the per-step argmax of the raw logits. -/
def decodeForced (A : Act) {B L E H Vt : ℕ} (p : DecoderP E H Vt)
    (targets : List (Fin B → ℤ)) (eo : Fin B → Fin L → Vec (2 * H))
    (hc : Hidden B H) :
    Except Err (List (Fin B → Vec Vt) × List (Fin B → ℤ)) :=
  match decoderForward A p eo targets hc with
  | .error e => .error e
  | .ok r =>
    .ok (r.1.map (fun m b => logSoftmaxVec A (m b)),
         r.1.map (fun m b => ((argmaxVec (m b) : ℕ) : ℤ)))

/-- One greedy step's score row `step_scores = log_softmax(step_output)`,
where `step_output = step_output[:, -1:, :]` is the last (and only) logit
row returned by the single-step decoder call. -/
def greedyStepScores (A : Act) {B Vt : ℕ} (r1 : List (Fin B → Vec Vt)) :
    Fin B → Vec Vt :=
  fun b => logSoftmaxVec A ((r1.getLastD (fun _ _ => 0)) b)

/-- One greedy step's prediction column `step_preds`, the per-row argmax of
`step_scores` (`step_scores.max(dim=2)`), as integer token indices. -/
def greedyStepPreds (A : Act) {B Vt : ℕ} (r1 : List (Fin B → Vec Vt)) :
    Fin B → ℤ :=
  fun b => ((argmaxVec (greedyStepScores A r1 b) : ℕ) : ℤ)

/-- The `for _ in range(max_len)` loop of `Seq2Seq.decode_greedy`.  Each
iteration feeds the most recent prediction column to the decoder, appends
the log-softmax scores and their argmax to the accumulators, and — only when
every batch row's prediction rows (seed included) contain `END_INDEX` and
the model is not in training mode — breaks early. -/
def greedyLoop (A : Act) {B L E H Vt : ℕ} (p : DecoderP E H Vt) (endI : ℤ)
    (training : Bool) (eo : Fin B → Fin L → Vec (2 * H)) :
    ℕ → List (Fin B → ℤ) → List (Fin B → Vec Vt) → Hidden B H →
    Except Err (List (Fin B → ℤ) × List (Fin B → Vec Vt))
  | 0, preds, scores, _ => .ok (preds, scores)
  | n + 1, preds, scores, hc =>
    match decoderForward A p eo [preds.getLastD (fun _ => 0)] hc with
    | .error e => .error e
    | .ok r =>
      if (∀ b, ∃ q ∈ preds ++ [greedyStepPreds A r.1], q b = endI) ∧
          training = false then
        .ok (preds ++ [greedyStepPreds A r.1], scores ++ [greedyStepScores A r.1])
      else greedyLoop A p endI training eo n (preds ++ [greedyStepPreds A r.1])
        (scores ++ [greedyStepScores A r.1]) r.2

/-- `Seq2Seq.decode_greedy`: seed the prediction sequence with the start
token, run the loop, concatenate the accumulated scores (`torch.cat` fails
on an empty list), and drop the seed column from the predictions. -/
def decodeGreedy (A : Act) {Vs Vt E H B L : ℕ} (M : Seq2SeqP E H Vs Vt)
    (eo : Fin B → Fin L → Vec (2 * H)) (hc : Hidden B H) (maxLen : ℕ)
    (training : Bool) :
    Except Err (List (Fin B → Vec Vt) × List (Fin B → ℤ)) :=
  match greedyLoop A M.decoder M.END_INDEX training eo maxLen
      [fun _ => M.START_INDEX] [] hc with
  | .error e => .error e
  | .ok r =>
    if r.2.isEmpty then .error .emptyCat
    else .ok (r.2, r.1.tail)

/-- `Seq2Seq.forward`: run the encoder, then dispatch on the presence of
targets to teacher-forced or greedy decoding.  `training` is the module's
train/eval mode flag. -/
def seq2seqForward (A : Act) {Vs Vt E H B L : ℕ} (M : Seq2SeqP E H Vs Vt)
    (inputs : Fin B → Fin L → ℤ) (targets : Option (List (Fin B → ℤ)))
    (maxLen : ℕ) (training : Bool) :
    Except Err (List (Fin B → Vec Vt) × List (Fin B → ℤ)) :=
  match encoderForward A M.encoder inputs with
  | .error e => .error e
  | .ok r =>
    match targets with
    | none => decodeGreedy A M r.1 r.2 maxLen training
    | some ts => decodeForced A M.decoder ts r.1 r.2

/-! Concrete instances used to witness the theorems: an activation record
with constant functions (any record satisfying the assumed positivity works),
and a model with all dimensions 1 and all learned parameters 0. -/

/-- A concrete activation record: `exp = const 1`, `log = const 0`.  It
satisfies `∀ x, 0 < exp x`, the only property any theorem assumes. -/
def actOne : Act := ⟨fun _ => 1, fun _ => 0⟩

/-- All-zero LSTM parameters with input and hidden size 1. -/
def lstm0 : LSTMP 1 1 :=
  ⟨fun _ _ => 0, fun _ _ => 0, fun _ _ => 0, fun _ _ => 0,
   fun _ _ => 0, fun _ _ => 0, fun _ _ => 0, fun _ _ => 0,
   fun _ => 0, fun _ => 0, fun _ => 0, fun _ => 0,
   fun _ => 0, fun _ => 0, fun _ => 0, fun _ => 0⟩

/-- All-zero attention parameters with hidden size 1. -/
def attn0 : AttnP 1 := ⟨fun _ _ => 0, fun _ _ => 0, fun _ => 0⟩

/-- All-zero encoder with vocabulary size 1. -/
def enc0 : EncoderP 1 1 1 := ⟨fun _ _ => 0, lstm0, lstm0⟩

/-- All-zero decoder with vocabulary size 1. -/
def dec0 : DecoderP 1 1 1 := ⟨fun _ _ => 0, lstm0, fun _ _ => 0, fun _ => 0, attn0⟩

/-- The all-zero model, with `START_INDEX = END_INDEX = 0` (in range for the
size-1 vocabularies). -/
def m0 : Seq2SeqP 1 1 1 1 := ⟨enc0, dec0, 0, 0⟩

/-- A zero `(1, 1, 2)` encoder-output tensor (source length 1). -/
def eo0 : Fin 1 → Fin 1 → Vec (2 * 1) := fun _ _ _ => 0

/-- A zero `(1, 2, 2)` encoder-output tensor (source length 2). -/
def eo2 : Fin 1 → Fin 2 → Vec (2 * 1) := fun _ _ _ => 0

/-- A zero decoder step output for batch 1, hidden size 1. -/
def decOut0 : Fin 1 → Vec 1 := fun _ _ => 0

/-- The all-zero hidden state for batch 1, hidden size 1. -/
def hc0 : Hidden 1 1 := zeroHidden 1 1

/-- A single all-zero target step for batch 1. -/
def ts0 : List (Fin 1 → ℤ) := [fun _ => 0]

/-! Supporting lemmas. -/

/-- A successful embedding of a token sequence has one embedded step per
input step. -/
lemma embedSeq_length {V E B : ℕ} (emb : Fin V → Vec E) :
    ∀ (toks : List (Fin B → ℤ)) (em : List (Fin B → Vec E)),
      embedSeq emb toks = .ok em → em.length = toks.length := by
  intro toks
  induction toks with
  | nil => intro em h; simp [embedSeq] at h; simp [← h]
  | cons r rs ih =>
    intro em h
    rw [embedSeq] at h
    cases hr : embedRow emb r with
    | error e => rw [hr] at h; exact absurd h (by simp)
    | ok x =>
      rw [hr] at h
      cases hrs : embedSeq emb rs with
      | error e => rw [hrs] at h; exact absurd h (by simp)
      | ok xs =>
        rw [hrs] at h
        simp only [Except.ok.injEq] at h
        simp [← h, ih xs hrs]

/-- The decoder's step loop produces one output per embedded input step. -/
lemma decoderLoop_length (A : Act) {B L E H V : ℕ} (p : DecoderP E H V)
    (eo : Fin B → Fin L → Vec (2 * H)) :
    ∀ (em : List (Fin B → Vec E)) (hc : Hidden B H),
      (decoderLoop A p eo em hc).1.length = em.length := by
  intro em
  induction em with
  | nil => intro hc; simp [decoderLoop]
  | cons x xs ih => intro hc; simp [decoderLoop, ih]

/-- A successful decoder call returns one logit row per input step. -/
lemma decoderForward_length (A : Act) {B L E H V : ℕ} (p : DecoderP E H V)
    (eo : Fin B → Fin L → Vec (2 * H)) (toks : List (Fin B → ℤ))
    (hc : Hidden B H) (r : List (Fin B → Vec V) × Hidden B H)
    (h : decoderForward A p eo toks hc = .ok r) : r.1.length = toks.length := by
  rw [decoderForward] at h
  cases hes : embedSeq p.emb toks with
  | error e => rw [hes] at h; exact absurd h (by simp)
  | ok em =>
    rw [hes] at h
    simp only [Except.ok.injEq] at h
    rw [← h]
    simp [decoderLoop_length, embedSeq_length p.emb toks em hes]

/-- Structure of a successful greedy loop run: the returned predictions and
scores extend the accumulators by step-aligned lists, and each appended
prediction column is the per-row argmax of the appended score row. -/
lemma greedyLoop_rel (A : Act) {B L E H Vt : ℕ} (p : DecoderP E H Vt)
    (endI : ℤ) (tr : Bool) (eo : Fin B → Fin L → Vec (2 * H)) :
    ∀ (n : ℕ) (preds : List (Fin B → ℤ)) (scores : List (Fin B → Vec Vt))
      (hc : Hidden B H) (P : List (Fin B → ℤ)) (S : List (Fin B → Vec Vt)),
      greedyLoop A p endI tr eo n preds scores hc = .ok (P, S) →
      ∃ pr sr, P = preds ++ pr ∧ S = scores ++ sr ∧
        List.Forall₂ (fun sc q => q = fun b => ((argmaxVec (sc b) : ℕ) : ℤ)) sr pr := by
  intro n
  induction n with
  | zero =>
    intro preds scores hc P S h
    simp only [greedyLoop, Except.ok.injEq, Prod.mk.injEq] at h
    exact ⟨[], [], by simp [← h.1], by simp [← h.2], List.Forall₂.nil⟩
  | succ n ih =>
    intro preds scores hc P S h
    rw [greedyLoop] at h
    cases hdf : decoderForward A p eo [preds.getLastD (fun _ => 0)] hc with
    | error e => rw [hdf] at h; exact absurd h (by simp)
    | ok r =>
      rw [hdf] at h
      simp only at h
      split at h
      · simp only [Except.ok.injEq, Prod.mk.injEq] at h
        exact ⟨_, _, h.1.symm, h.2.symm, List.Forall₂.cons rfl List.Forall₂.nil⟩
      · obtain ⟨pr', sr', hP, hS, hrel⟩ := ih _ _ _ _ _ h
        exact ⟨greedyStepPreds A r.1 :: pr', greedyStepScores A r.1 :: sr',
          by simp [hP], by simp [hS], List.Forall₂.cons rfl hrel⟩

/-- The greedy loop appends at most `n` score rows in `n` iterations. -/
lemma greedyLoop_len_le (A : Act) {B L E H Vt : ℕ} (p : DecoderP E H Vt)
    (endI : ℤ) (tr : Bool) (eo : Fin B → Fin L → Vec (2 * H)) :
    ∀ (n : ℕ) (preds : List (Fin B → ℤ)) (scores : List (Fin B → Vec Vt))
      (hc : Hidden B H) (P : List (Fin B → ℤ)) (S : List (Fin B → Vec Vt)),
      greedyLoop A p endI tr eo n preds scores hc = .ok (P, S) →
      S.length ≤ scores.length + n := by
  intro n
  induction n with
  | zero =>
    intro preds scores hc P S h
    simp only [greedyLoop, Except.ok.injEq, Prod.mk.injEq] at h
    simp [← h.2]
  | succ n ih =>
    intro preds scores hc P S h
    rw [greedyLoop] at h
    cases hdf : decoderForward A p eo [preds.getLastD (fun _ => 0)] hc with
    | error e => rw [hdf] at h; exact absurd h (by simp)
    | ok r =>
      rw [hdf] at h
      simp only at h
      split at h
      · simp only [Except.ok.injEq, Prod.mk.injEq] at h
        simp [← h.2]
      · have := ih _ _ _ _ _ h
        simp only [List.length_append, List.length_singleton] at this
        omega

/-- In training mode the greedy loop never breaks early: it appends exactly
`n` score rows in `n` iterations. -/
lemma greedyLoop_len_train (A : Act) {B L E H Vt : ℕ} (p : DecoderP E H Vt)
    (endI : ℤ) (eo : Fin B → Fin L → Vec (2 * H)) :
    ∀ (n : ℕ) (preds : List (Fin B → ℤ)) (scores : List (Fin B → Vec Vt))
      (hc : Hidden B H) (P : List (Fin B → ℤ)) (S : List (Fin B → Vec Vt)),
      greedyLoop A p endI true eo n preds scores hc = .ok (P, S) →
      S.length = scores.length + n := by
  intro n
  induction n with
  | zero =>
    intro preds scores hc P S h
    simp only [greedyLoop, Except.ok.injEq, Prod.mk.injEq] at h
    simp [← h.2]
  | succ n ih =>
    intro preds scores hc P S h
    rw [greedyLoop] at h
    cases hdf : decoderForward A p eo [preds.getLastD (fun _ => 0)] hc with
    | error e => rw [hdf] at h; exact absurd h (by simp)
    | ok r =>
      rw [hdf] at h
      simp only at h
      split at h
      · rename_i hcond
        exact absurd hcond.2 (by simp)
      · have := ih _ _ _ _ _ h
        simp only [List.length_append, List.length_singleton] at this
        omega

/-- In evaluation mode, once every batch row's accumulated predictions
(seed included) contain the end token within the first `k` appended steps,
the loop stops by step `k`: the returned scores have at most `k` new rows. -/
lemma greedyLoop_stop (A : Act) {B L E H Vt : ℕ} (p : DecoderP E H Vt)
    (endI : ℤ) (eo : Fin B → Fin L → Vec (2 * H)) :
    ∀ (n : ℕ) (preds : List (Fin B → ℤ)) (scores : List (Fin B → Vec Vt))
      (hc : Hidden B H) (pr : List (Fin B → ℤ)) (S : List (Fin B → Vec Vt)),
      greedyLoop A p endI false eo n preds scores hc = .ok (preds ++ pr, S) →
      ∀ k, 1 ≤ k → (∀ b, ∃ q ∈ preds ++ pr.take k, q b = endI) →
      S.length ≤ scores.length + k := by
  intro n
  induction n with
  | zero =>
    intro preds scores hc pr S h k hk _
    simp only [greedyLoop, Except.ok.injEq, Prod.mk.injEq] at h
    simp [← h.2]
  | succ n ih =>
    intro preds scores hc pr S h k hk hfin
    rw [greedyLoop] at h
    cases hdf : decoderForward A p eo [preds.getLastD (fun _ => 0)] hc with
    | error e => rw [hdf] at h; exact absurd h (by simp)
    | ok r =>
      rw [hdf] at h
      simp only at h
      split at h
      · simp only [Except.ok.injEq, Prod.mk.injEq] at h
        have := congrArg List.length h.2
        simp only [List.length_append, List.length_singleton] at this
        omega
      · rename_i hcond
        obtain ⟨pr', sr', hP, hS, _⟩ :=
          greedyLoop_rel A p endI false eo _ _ _ _ _ _ h
        have hpr : pr = greedyStepPreds A r.1 :: pr' := by
          have h2 : preds ++ pr = preds ++ (greedyStepPreds A r.1 :: pr') := by
            rw [hP, List.append_assoc]; rfl
          exact List.append_cancel_left h2
        obtain ⟨k', rfl⟩ : ∃ k', k = k' + 1 := ⟨k - 1, by omega⟩
        rcases Nat.eq_zero_or_pos k' with hk0 | hk1
        · subst hk0
          refine absurd ⟨?_, trivial⟩ hcond
          intro b
          obtain ⟨q, hq, hqe⟩ := hfin b
          rw [hpr] at hq
          exact ⟨q, by simpa using hq, hqe⟩
        · rw [hP] at h
          have hfin' : ∀ b, ∃ q ∈ (preds ++ [greedyStepPreds A r.1])
              ++ pr'.take k', q b = endI := by
            intro b
            obtain ⟨q, hq, hqe⟩ := hfin b
            rw [hpr] at hq
            refine ⟨q, ?_, hqe⟩
            simp only [List.take_succ_cons, List.mem_append, List.mem_cons,
              List.mem_singleton, List.not_mem_nil] at hq ⊢
            tauto
          have := ih _ _ _ _ _ h k' hk1 hfin'
          simp only [List.length_append, List.length_singleton] at this
          omega

/-- Unfolding a successful greedy decode: the loop returned some `(P, S)`
with `S` nonempty, and the result is `(S, P.tail)` — the accumulated scores
and the predictions with the seed start-token column removed. -/
lemma decodeGreedy_ok (A : Act) {Vs Vt E H B L : ℕ} (M : Seq2SeqP E H Vs Vt)
    (eo : Fin B → Fin L → Vec (2 * H)) (hc : Hidden B H) (n : ℕ) (tr : Bool)
    (h : (decodeGreedy A M eo hc n tr).isOk = true) :
    ∃ P S, greedyLoop A M.decoder M.END_INDEX tr eo n
        [fun _ => M.START_INDEX] [] hc = .ok (P, S) ∧
      S.isEmpty = false ∧ decodeGreedy A M eo hc n tr = .ok (S, P.tail) := by
  cases hg : greedyLoop A M.decoder M.END_INDEX tr eo n
      [fun _ => M.START_INDEX] [] hc with
  | error e =>
    rw [decodeGreedy, hg] at h
    simp [Except.isOk, Except.toBool] at h
  | ok r =>
    rw [decodeGreedy, hg] at h
    simp only at h
    cases hemp : r.2.isEmpty with
    | true =>
      rw [hemp] at h
      simp [Except.isOk, Except.toBool] at h
    | false =>
      refine ⟨r.1, r.2, rfl, hemp, ?_⟩
      rw [decodeGreedy, hg]
      simp only [hemp]
      simp

/-- Every attention weight is exactly 1: the softmax in `Attention.forward`
is taken along axis 1 of the `(B, 1, src_len)` score tensor, an axis of
size one, so each entry is `exp s / exp s`. -/
lemma attnWeights_one (A : Act) (hexp : ∀ x, 0 < A.exp x) {B L H : ℕ}
    (p : AttnP H) (hid : Hidden B H) (eo : Fin B → Fin L → Vec (2 * H))
    (b : Fin B) (i : Fin 1) (l : Fin L) :
    attnWeights A p hid eo b i l = 1 := by
  obtain rfl : i = 0 := Subsingleton.elim i 0
  simp only [attnWeights, softmaxVec, Fin.sum_univ_one]
  exact div_self (ne_of_gt (hexp _))

/-- Consequently the attention-applied context is the plain (unweighted)
sum of the encoder outputs over all source positions. -/
lemma attnApplied_eq_sum (A : Act) (hexp : ∀ x, 0 < A.exp x) {B L H : ℕ}
    (p : AttnP H) (hid : Hidden B H) (eo : Fin B → Fin L → Vec (2 * H))
    (b : Fin B) (j : Fin (2 * H)) :
    attnApplied A p hid eo b j = ∑ l, eo b l j := by
  simp only [attnApplied]
  refine Finset.sum_congr rfl fun l _ => ?_
  rw [attnWeights_one A hexp, one_mul]

/-- A `(1, 1)` source tensor holding the out-of-range index `-1`. -/
def badSrc : Fin 1 → Fin 1 → ℤ := fun _ _ => -1

/-- A `(1, 1)` source tensor holding the in-range index `0`. -/
def goodSrc : Fin 1 → Fin 1 → ℤ := fun _ _ => 0

/-- A single target step holding the out-of-range index `5`. -/
def badTgt : List (Fin 1 → ℤ) := [fun _ => 5]

/-- `embedRow` fails only with an index-out-of-range error. -/
lemma embedRow_error {V E B : ℕ} (emb : Fin V → Vec E) (r : Fin B → ℤ)
    (e : Err) (h : embedRow emb r = .error e) : e = .indexOutOfRange := by
  rw [embedRow] at h
  split at h
  · exact absurd h (by simp)
  · rw [Except.error.injEq] at h
    exact h.symm

/-- `embedAll` fails only with an index-out-of-range error. -/
lemma embedAll_error {V E B L : ℕ} (emb : Fin V → Vec E)
    (toks : Fin B → Fin L → ℤ) (e : Err)
    (h : embedAll emb toks = .error e) : e = .indexOutOfRange := by
  rw [embedAll] at h
  split at h
  · exact absurd h (by simp)
  · rw [Except.error.injEq] at h
    exact h.symm

/-- `encoderForward` fails only with an index-out-of-range error (from its
embedding lookup). -/
lemma encoderForward_error (A : Act) {V E H B L : ℕ} (enc : EncoderP E H V)
    (toks : Fin B → Fin L → ℤ) (e : Err)
    (h : encoderForward A enc toks = .error e) : e = .indexOutOfRange := by
  rw [encoderForward] at h
  cases hem : embedAll enc.emb toks with
  | error e2 =>
    rw [hem] at h
    simp only [Except.error.injEq] at h
    rw [← h]
    exact embedAll_error enc.emb toks e2 hem
  | ok em =>
    rw [hem] at h
    exact absurd h (by simp)

/-- If any step row of a token sequence contains an out-of-range index, the
sequence embedding fails with an index-out-of-range error. -/
lemma embedSeq_err {V E B : ℕ} (emb : Fin V → Vec E) :
    ∀ ts : List (Fin B → ℤ),
      (∃ r ∈ ts, ¬ (∀ b, 0 ≤ r b ∧ r b < (V : ℤ))) →
      embedSeq emb ts = .error .indexOutOfRange := by
  intro ts
  induction ts with
  | nil => intro h; simp at h
  | cons r rs ih =>
    intro h
    obtain ⟨q, hq, hbad⟩ := h
    rcases List.mem_cons.mp hq with rfl | hmem
    · have hrow : embedRow emb q = .error .indexOutOfRange := by
        rw [embedRow]
        exact dif_neg hbad
      rw [embedSeq, hrow]
    · cases hrow : embedRow emb r with
      | error e =>
        rw [embedSeq, hrow, embedRow_error emb r e hrow]
      | ok x =>
        rw [embedSeq, hrow, ih ⟨q, hmem, hbad⟩]

/-! The claim theorems. -/

/-- C8: a forward call whose source or target tokens contain an index that
is negative or at least the corresponding vocabulary size fails with the
index-out-of-range error raised at the embedding lookup, propagated to the
caller; no clamped or substituted result is returned. -/
theorem seq2seqForward_bad_index (A : Act) {Vs Vt E H B L : ℕ}
    (M : Seq2SeqP E H Vs Vt) (inputs : Fin B → Fin L → ℤ)
    (targets : Option (List (Fin B → ℤ))) (maxLen : ℕ) (tr : Bool) :
    (¬ (∀ b t, 0 ≤ inputs b t ∧ inputs b t < (Vs : ℤ)) →
      seq2seqForward A M inputs targets maxLen tr = .error .indexOutOfRange) ∧
    (∀ ts, targets = some ts →
      (∃ r ∈ ts, ¬ (∀ b, 0 ≤ r b ∧ r b < (Vt : ℤ))) →
      seq2seqForward A M inputs targets maxLen tr = .error .indexOutOfRange) := by
  constructor
  · intro hbad
    have henc : embedAll M.encoder.emb inputs = .error .indexOutOfRange := by
      rw [embedAll]
      exact dif_neg hbad
    rw [seq2seqForward, encoderForward, henc]
  · intro ts hts hbad
    subst hts
    rw [seq2seqForward]
    cases he : encoderForward A M.encoder inputs with
    | error e => rw [encoderForward_error A M.encoder inputs e he]
    | ok r =>
      have hds : embedSeq M.decoder.emb ts = .error .indexOutOfRange :=
        embedSeq_err M.decoder.emb ts hbad
      simp only
      rw [decodeForced, decoderForward, hds]

/-- Witness for C8: a negative source token and an over-large target token
each produce the index-out-of-range error at the concrete zero model. -/
theorem seq2seqForward_bad_index_witness :
    (¬ (∀ (b : Fin 1) (t : Fin 1), 0 ≤ badSrc b t ∧ badSrc b t < ((1 : ℕ) : ℤ))) ∧
    seq2seqForward actOne m0 badSrc none 1 false = .error .indexOutOfRange ∧
    (∃ r ∈ badTgt, ¬ (∀ b, 0 ≤ r b ∧ r b < ((1 : ℕ) : ℤ))) ∧
    seq2seqForward actOne m0 goodSrc (some badTgt) 1 false = .error .indexOutOfRange :=
  ⟨by decide,
   (seq2seqForward_bad_index actOne m0 badSrc none 1 false).1 (by decide),
   by decide,
   (seq2seqForward_bad_index actOne m0 goodSrc (some badTgt) 1 false).2
     badTgt rfl (by decide)⟩

/-- C9: every entry of the attention-weight tensor returned by
`Attention.forward` equals exactly 1 (the softmax is taken over an axis of
size 1), so the attention-applied context is the unweighted sum of encoder
outputs over all source positions and does not depend on the decoder hidden
state or the learned attention projection. -/
theorem attention_weights_all_one (A : Act) (hexp : ∀ x, 0 < A.exp x)
    {B L H : ℕ} (p : AttnP H) (decOut : Fin B → Vec H) (hid : Hidden B H)
    (eo : Fin B → Fin L → Vec (2 * H)) :
    (∀ b i l, (attentionForward A p decOut hid eo).2 b i l = 1) ∧
    (∀ b j, attnApplied A p hid eo b j = ∑ l, eo b l j) ∧
    (∀ (p' : AttnP H) (hid' : Hidden B H),
      attnApplied A p' hid' eo = attnApplied A p hid eo) := by
  refine ⟨fun b i l => attnWeights_one A hexp p hid eo b i l,
    fun b j => attnApplied_eq_sum A hexp p hid eo b j, fun p' hid' => ?_⟩
  funext b j
  rw [attnApplied_eq_sum A hexp p' hid' eo b j,
    attnApplied_eq_sum A hexp p hid eo b j]

/-- Witness for C9 at the concrete zero model with source length 2. -/
theorem attention_weights_all_one_witness :
    (∀ x, 0 < actOne.exp x) ∧
    ((∀ b i l, (attentionForward actOne attn0 decOut0 hc0 eo2).2 b i l = 1) ∧
     (∀ b j, attnApplied actOne attn0 hc0 eo2 b j = ∑ l, eo2 b l j) ∧
     (∀ (p' : AttnP 1) (hid' : Hidden 1 1),
       attnApplied actOne p' hid' eo2 = attnApplied actOne attn0 hc0 eo2)) :=
  ⟨fun _ => one_pos,
   attention_weights_all_one actOne (fun _ => one_pos) attn0 decOut0 hc0 eo2⟩

/-- C1: contrary to the claim, the attention weights returned by
`Attention.forward` do not sum to 1 across the source-position axis when
`src_len > 1`: at source length 2 (concrete all-zero parameters, batch 1,
hidden size 1) every weight is 1 and the row sums to 2. -/
theorem attention_row_sum_is_src_len (A : Act) (hexp : ∀ x, 0 < A.exp x) :
    ∑ l : Fin 2, (attentionForward A attn0 decOut0 hc0 eo2).2 0 0 l = 2 := by
  have h1 : ∀ l : Fin 2, (attentionForward A attn0 decOut0 hc0 eo2).2 0 0 l = 1 :=
    fun l => attnWeights_one A hexp attn0 hc0 eo2 0 0 l
  rw [Finset.sum_congr rfl (fun l _ => h1 l)]
  simp

/-- Witness for C1: the hypothesis on `exp` holds for the concrete
activation record, and the weight row at source length 2 sums to 2, not 1. -/
theorem attention_row_sum_is_src_len_witness :
    (∀ x, 0 < actOne.exp x) ∧
    ∑ l : Fin 2, (attentionForward actOne attn0 decOut0 hc0 eo2).2 0 0 l = 2 :=
  ⟨fun _ => one_pos, attention_row_sum_is_src_len actOne (fun _ => one_pos)⟩

/-- C10: a greedy decode with `max_len = 0` (the meaning of `max_len ≤ 0`
for Python's `range`) performs zero decoder steps and fails on the
concatenation of the empty score accumulator; it never returns empty score
and prediction sequences. -/
theorem decodeGreedy_maxlen_zero_error (A : Act) {Vs Vt E H B L : ℕ}
    (M : Seq2SeqP E H Vs Vt) (eo : Fin B → Fin L → Vec (2 * H))
    (hc : Hidden B H) (tr : Bool) :
    decodeGreedy A M eo hc 0 tr = .error .emptyCat := rfl

/-- C7: the forward pass is deterministic — two models with identical
parameters (encoder, decoder, start and end indices) produce identical
outputs on identical inputs, targets, `max_len` and mode; the embedding is
a pure function, mirroring the randomness-free forward path. -/
theorem seq2seqForward_deterministic (A : Act) {Vs Vt E H B L : ℕ}
    (M1 M2 : Seq2SeqP E H Vs Vt)
    (henc : M1.encoder = M2.encoder) (hdec : M1.decoder = M2.decoder)
    (hstart : M1.START_INDEX = M2.START_INDEX)
    (hend : M1.END_INDEX = M2.END_INDEX)
    (inputs : Fin B → Fin L → ℤ) (targets : Option (List (Fin B → ℤ)))
    (maxLen : ℕ) (training : Bool) :
    seq2seqForward A M1 inputs targets maxLen training =
      seq2seqForward A M2 inputs targets maxLen training := by
  obtain ⟨e1, d1, s1, x1⟩ := M1
  obtain ⟨e2, d2, s2, x2⟩ := M2
  cases henc
  cases hdec
  cases hstart
  cases hend
  rfl

/-- Witness for C7 at the concrete zero model. -/
theorem seq2seqForward_deterministic_witness :
    (m0.encoder = m0.encoder ∧ m0.decoder = m0.decoder ∧
     m0.START_INDEX = m0.START_INDEX ∧ m0.END_INDEX = m0.END_INDEX) ∧
    seq2seqForward actOne m0 goodSrc none 1 false =
      seq2seqForward actOne m0 goodSrc none 1 false :=
  ⟨⟨rfl, rfl, rfl, rfl⟩,
   seq2seqForward_deterministic actOne m0 m0 rfl rfl rfl rfl goodSrc none 1 false⟩

/-- C2: a successful teacher-forced decode returns scores that are the
log-softmax over the vocabulary axis of the raw decoder logits and
predictions that are the per-position argmax of the raw logits, with one
score row and one prediction column per target step (shapes `(B, T, V)` and
`(B, T)` — batch and vocabulary axes are carried by the types). -/
theorem decodeForced_scores_preds (A : Act) {B L E H Vt : ℕ}
    (p : DecoderP E H Vt) (targets : List (Fin B → ℤ))
    (eo : Fin B → Fin L → Vec (2 * H)) (hc : Hidden B H)
    (h : (decoderForward A p eo targets hc).isOk = true) :
    ∃ logits hfin S P,
      decoderForward A p eo targets hc = .ok (logits, hfin) ∧
      decodeForced A p targets eo hc = .ok (S, P) ∧
      S.length = targets.length ∧ P.length = targets.length ∧
      (∀ t, t < targets.length → ∀ b,
        S.getD t (fun _ _ => 0) b =
          logSoftmaxVec A (logits.getD t (fun _ _ => 0) b)) ∧
      (∀ t, t < targets.length → ∀ b,
        P.getD t (fun _ => 0) b =
          ((argmaxVec (logits.getD t (fun _ _ => 0) b) : ℕ) : ℤ)) := by
  cases hdf : decoderForward A p eo targets hc with
  | error e =>
    rw [hdf] at h
    simp [Except.isOk, Except.toBool] at h
  | ok r =>
    have hlen : r.1.length = targets.length :=
      decoderForward_length A p eo targets hc r hdf
    have ht1 : ∀ t, t < targets.length → t < r.1.length := by
      intro t ht
      rw [hlen]
      exact ht
    refine ⟨r.1, r.2, r.1.map (fun m b => logSoftmaxVec A (m b)),
      r.1.map (fun m b => ((argmaxVec (m b) : ℕ) : ℤ)), ?_, ?_, ?_, ?_, ?_, ?_⟩
    · rfl
    · rw [decodeForced, hdf]
    · simp [hlen]
    · simp [hlen]
    · intro t ht b
      rw [List.getD_eq_getElem _ _ (by simpa using ht1 t ht),
        List.getD_eq_getElem _ _ (ht1 t ht), List.getElem_map]
    · intro t ht b
      rw [List.getD_eq_getElem _ _ (by simpa using ht1 t ht),
        List.getD_eq_getElem _ _ (ht1 t ht), List.getElem_map]

/-- Witness for C2 at the concrete zero model with one target step. -/
theorem decodeForced_scores_preds_witness :
    (decoderForward actOne dec0 eo0 ts0 hc0).isOk = true ∧
    (∃ logits hfin S P,
      decoderForward actOne dec0 eo0 ts0 hc0 = .ok (logits, hfin) ∧
      decodeForced actOne dec0 ts0 eo0 hc0 = .ok (S, P) ∧
      S.length = ts0.length ∧ P.length = ts0.length ∧
      (∀ t, t < ts0.length → ∀ b,
        S.getD t (fun _ _ => 0) b =
          logSoftmaxVec actOne (logits.getD t (fun _ _ => 0) b)) ∧
      (∀ t, t < ts0.length → ∀ b,
        P.getD t (fun _ => 0) b =
          ((argmaxVec (logits.getD t (fun _ _ => 0) b) : ℕ) : ℤ))) :=
  ⟨rfl, decodeForced_scores_preds actOne dec0 ts0 eo0 hc0 rfl⟩

/-- C6: on an in-range source batch the encoder succeeds, returning
per-position outputs of type `(B, L, 2·H)` and a hidden/cell pair of type
`(B, H)` each (the constant leading `num_layers = 1` axis is erased), where
hidden and cell are the sums of the two per-direction final states over the
direction axis. -/
theorem encoderForward_shapes_merge (A : Act) {V E H B L : ℕ}
    (enc : EncoderP E H V) (toks : Fin B → Fin L → ℤ)
    (hgood : ∀ b t, 0 ≤ toks b t ∧ toks b t < (V : ℤ)) :
    ∃ (em : Fin B → Fin L → Vec E) (out : Fin B → Fin L → Vec (2 * H))
      (hcp : Hidden B H),
      embedAll enc.emb toks = .ok em ∧
      encoderForward A enc toks = .ok (out, hcp) ∧
      out = encOutputs A enc em ∧
      (∀ b i, hcp.1 b i =
        (encDirFinals A enc em 0).1 b i + (encDirFinals A enc em 1).1 b i) ∧
      (∀ b i, hcp.2 b i =
        (encDirFinals A enc em 0).2 b i + (encDirFinals A enc em 1).2 b i) := by
  cases hem : embedAll enc.emb toks with
  | error e =>
    rw [embedAll, dif_pos hgood] at hem
    exact absurd hem (by simp)
  | ok em =>
    refine ⟨em, encOutputs A enc em,
      (fun b i => ∑ d, (encDirFinals A enc em d).1 b i,
       fun b i => ∑ d, (encDirFinals A enc em d).2 b i),
      rfl, ?_, rfl, ?_, ?_⟩
    · rw [encoderForward, hem]
    · intro b i
      exact Fin.sum_univ_two (fun d => (encDirFinals A enc em d).1 b i)
    · intro b i
      exact Fin.sum_univ_two (fun d => (encDirFinals A enc em d).2 b i)

/-- Witness for C6 at the concrete zero encoder. -/
theorem encoderForward_shapes_merge_witness :
    (∀ (b : Fin 1) (t : Fin 1), 0 ≤ goodSrc b t ∧ goodSrc b t < ((1 : ℕ) : ℤ)) ∧
    (∃ (em : Fin 1 → Fin 1 → Vec 1) (out : Fin 1 → Fin 1 → Vec (2 * 1))
      (hcp : Hidden 1 1),
      embedAll enc0.emb goodSrc = .ok em ∧
      encoderForward actOne enc0 goodSrc = .ok (out, hcp) ∧
      out = encOutputs actOne enc0 em ∧
      (∀ b i, hcp.1 b i =
        (encDirFinals actOne enc0 em 0).1 b i +
          (encDirFinals actOne enc0 em 1).1 b i) ∧
      (∀ b i, hcp.2 b i =
        (encDirFinals actOne enc0 em 0).2 b i +
          (encDirFinals actOne enc0 em 1).2 b i)) :=
  ⟨by decide, encoderForward_shapes_merge actOne enc0 goodSrc (by decide)⟩

/-- C3: a successful greedy decode in evaluation (non-training) mode
performs at most `max_len` decoder steps (one returned score row per step),
and if every batch row has emitted the end token among its returned
predictions within the first `k` steps, no step beyond `k` is computed.
The batch is nonempty ("every batch row" presumes rows exist). -/
theorem decodeGreedy_eval_early_stop (A : Act) {Vs Vt E H B L : ℕ}
    (M : Seq2SeqP E H Vs Vt) (eo : Fin B → Fin L → Vec (2 * H))
    (hc : Hidden B H) (maxLen : ℕ) (hB : 0 < B)
    (h : (decodeGreedy A M eo hc maxLen false).isOk = true) :
    ∃ S P, decodeGreedy A M eo hc maxLen false = .ok (S, P) ∧
      S.length ≤ maxLen ∧
      (∀ k, (∀ b, ∃ q ∈ P.take k, q b = M.END_INDEX) → S.length ≤ k) := by
  obtain ⟨P0, S0, hloop, hne, hres⟩ := decodeGreedy_ok A M eo hc maxLen false h
  obtain ⟨pr, sr, hP, hS, hrel⟩ :=
    greedyLoop_rel A M.decoder M.END_INDEX false eo maxLen _ _ _ _ _ hloop
  have htail : P0.tail = pr := by rw [hP]; rfl
  refine ⟨S0, P0.tail, hres, ?_, ?_⟩
  · have := greedyLoop_len_le A M.decoder M.END_INDEX false eo maxLen
      _ _ _ _ _ hloop
    simpa using this
  · intro k hk
    rcases Nat.eq_zero_or_pos k with rfl | hk1
    · obtain ⟨q, hq, _⟩ := hk ⟨0, hB⟩
      simp at hq
    · rw [hP] at hloop
      have hfin : ∀ b, ∃ q ∈ [fun _ => M.START_INDEX] ++ pr.take k,
          q b = M.END_INDEX := by
        intro b
        obtain ⟨q, hq, hqe⟩ := hk b
        rw [htail] at hq
        exact ⟨q, List.mem_append_right _ hq, hqe⟩
      have := greedyLoop_stop A M.decoder M.END_INDEX eo maxLen
        [fun _ => M.START_INDEX] [] hc pr S0 hloop k hk1 hfin
      simpa using this

/-- Witness for C3 at the concrete zero model (one evaluation-mode step). -/
theorem decodeGreedy_eval_early_stop_witness :
    ((0 : ℕ) < 1 ∧ (decodeGreedy actOne m0 eo0 hc0 1 false).isOk = true) ∧
    (∃ S P, decodeGreedy actOne m0 eo0 hc0 1 false = .ok (S, P) ∧
      S.length ≤ 1 ∧
      (∀ k, (∀ b, ∃ q ∈ P.take k, q b = m0.END_INDEX) → S.length ≤ k)) :=
  ⟨⟨by decide, rfl⟩, decodeGreedy_eval_early_stop actOne m0 eo0 hc0 1 (by decide) rfl⟩

/-- C4: a successful greedy decode in training mode performs exactly
`max_len` decoder steps — one returned score row and prediction column per
step — regardless of end-token emission. -/
theorem decodeGreedy_train_full_length (A : Act) {Vs Vt E H B L : ℕ}
    (M : Seq2SeqP E H Vs Vt) (eo : Fin B → Fin L → Vec (2 * H))
    (hc : Hidden B H) (maxLen : ℕ)
    (h : (decodeGreedy A M eo hc maxLen true).isOk = true) :
    ∃ S P, decodeGreedy A M eo hc maxLen true = .ok (S, P) ∧
      S.length = maxLen ∧ P.length = maxLen := by
  obtain ⟨P0, S0, hloop, hne, hres⟩ := decodeGreedy_ok A M eo hc maxLen true h
  obtain ⟨pr, sr, hP, hS, hrel⟩ :=
    greedyLoop_rel A M.decoder M.END_INDEX true eo maxLen _ _ _ _ _ hloop
  have hlen := greedyLoop_len_train A M.decoder M.END_INDEX eo maxLen
    _ _ _ _ _ hloop
  have htail : P0.tail = pr := by rw [hP]; rfl
  have hsr : S0 = sr := by simpa using hS
  refine ⟨S0, P0.tail, hres, by simpa using hlen, ?_⟩
  rw [htail, ← hrel.length_eq, ← hsr]
  simpa using hlen

/-- Witness for C4 at the concrete zero model: in training mode both steps
run even though the end token is emitted at the first step. -/
theorem decodeGreedy_train_full_length_witness :
    (decodeGreedy actOne m0 eo0 hc0 2 true).isOk = true ∧
    (∃ S P, decodeGreedy actOne m0 eo0 hc0 2 true = .ok (S, P) ∧
      S.length = 2 ∧ P.length = 2) :=
  ⟨rfl, decodeGreedy_train_full_length actOne m0 eo0 hc0 2 rfl⟩

/-- C5: a successful greedy decode returns `n ≥ 1` prediction columns that
exclude the seed start token and correspond one-to-one with the `n`
returned score rows: step by step, each prediction column is the per-row
argmax of its score row. -/
theorem decodeGreedy_preds_are_argmax (A : Act) {Vs Vt E H B L : ℕ}
    (M : Seq2SeqP E H Vs Vt) (eo : Fin B → Fin L → Vec (2 * H))
    (hc : Hidden B H) (maxLen : ℕ) (tr : Bool)
    (h : (decodeGreedy A M eo hc maxLen tr).isOk = true) :
    ∃ S P, decodeGreedy A M eo hc maxLen tr = .ok (S, P) ∧
      P.length = S.length ∧ 1 ≤ S.length ∧
      List.Forall₂ (fun sc q => ∀ b, q b = ((argmaxVec (sc b) : ℕ) : ℤ)) S P := by
  obtain ⟨P0, S0, hloop, hne, hres⟩ := decodeGreedy_ok A M eo hc maxLen tr h
  obtain ⟨pr, sr, hP, hS, hrel⟩ :=
    greedyLoop_rel A M.decoder M.END_INDEX tr eo maxLen _ _ _ _ _ hloop
  have htail : P0.tail = pr := by rw [hP]; rfl
  have hsr : S0 = sr := by simpa using hS
  refine ⟨S0, P0.tail, hres, ?_, ?_, ?_⟩
  · rw [htail, hsr, hrel.length_eq]
  · cases S0 with
    | nil => simp at hne
    | cons a l => simp
  · rw [htail, hsr]
    exact hrel.imp (fun sc q hqe b => by rw [hqe])

/-- Witness for C5 at the concrete zero model. -/
theorem decodeGreedy_preds_are_argmax_witness :
    (decodeGreedy actOne m0 eo0 hc0 1 false).isOk = true ∧
    (∃ S P, decodeGreedy actOne m0 eo0 hc0 1 false = .ok (S, P) ∧
      P.length = S.length ∧ 1 ≤ S.length ∧
      List.Forall₂ (fun sc q => ∀ b, q b = ((argmaxVec (sc b) : ℕ) : ℤ)) S P) :=
  ⟨rfl, decodeGreedy_preds_are_argmax actOne m0 eo0 hc0 1 false rfl⟩

end NMT
